import Mathlib

/-
  Verification of dupfind (dupfind.c).

  Shallow embedding of the duplicate-file finder:
  * the filesystem is modelled as a map from path names to an optional
    stream of read results (`none` = the file cannot be opened; a stream
    element is either a successfully read chunk of bytes or a read error);
    once the explicit stream is exhausted every further read returns 0
    bytes (end of file), exactly as `read(2)` behaves on a regular file;
  * `compare_files` is the byte-by-byte comparison loop of dupfind.c;
  * `chunksOf` produces the chunked stream of an error-free regular file
    whose content is a given byte list, read `CHUNK_SIZE` bytes at a time;
  * phase three (sorting, hard-link filtering, master/good/bad rounds and
    the list / link / interactive-delete actions) is embedded below.
-/

namespace Dupfind


/-- The data stored about a file (`file_t` in dupfind.c); sizes, link
counts, modes, device and inode numbers are natural numbers. -/
structure file_t where
  name : String
  st_size : Nat
  st_nlink : Nat
  st_mode : Nat
  st_dev : Nat
  st_ino : Nat
deriving DecidableEq, Repr

/-- The result of one `read(2)` call on an open file: either a chunk of
bytes (`read` returned its length) or a read error (`read` returned -1). -/
inductive ReadResult where
  | chunk (data : List Nat)
  | err
deriving DecidableEq, Repr

/-- A filesystem: maps a path to `none` when `open(2)` fails, otherwise to
the stream of results of the successive `read` calls.  After the stream is
exhausted every further read returns an empty chunk (end of file). -/
abbrev FileSys := String → Option (List ReadResult)

/-- `#define CHUNK_SIZE 8192` in dupfind.c. -/
def CHUNK_SIZE : Nat := 8192

/-- Fuel-driven chunking of a byte list: each step takes `k` bytes.  Used
with fuel `l.length`, which suffices whenever `0 < k`. -/
def chunksOf_aux (k : Nat) : Nat → List Nat → List (List Nat)
  | 0, _ => []
  | _+1, [] => []
  | fuel+1, a :: l => (a :: l).take k :: chunksOf_aux k fuel ((a :: l).drop k)

/-- The list of chunks `read(2)` yields on a regular file with content
`l`, reading `k` bytes at a time (all chunks full size except the last). -/
def chunksOf (k : Nat) (l : List Nat) : List (List Nat) := chunksOf_aux k l.length l

/-- The error-free read stream of a regular file with byte content `c`,
as dupfind reads it (`CHUNK_SIZE` bytes per `read` call). -/
def toStream (c : List Nat) : List ReadResult :=
  (chunksOf CHUNK_SIZE c).map ReadResult.chunk

/-- The do/while loop of `compare_files` (dupfind.c lines 347-365): read a
chunk from each stream in lockstep; a read error on either side breaks out
with status 0; simultaneous end of file yields status 1; the loop continues
only while the chunk sizes match and the bytes are equal (`nb1 == nb2 &&
memcmp(buf1, buf2, nb1) == 0`, i.e. the chunk lists are equal). -/
def compare_loop : List ReadResult → List ReadResult → Bool
  | [], [] => true
  | [], ReadResult.err :: _ => false
  | [], ReadResult.chunk d :: _ => d.isEmpty
  | ReadResult.err :: _, _ => false
  | ReadResult.chunk d :: _, [] => d.isEmpty
  | ReadResult.chunk _ :: _, ReadResult.err :: _ => false
  | ReadResult.chunk d1 :: s1, ReadResult.chunk d2 :: s2 =>
    if d1 = [] ∧ d2 = [] then true
    else if d1 = d2 then compare_loop s1 s2
    else false

/-- `compare_files` (dupfind.c lines 332-375): open both files; if either
open fails, warn (`g_critical`) and return 0; otherwise run the lockstep
comparison loop. -/
def compare_files (fs : FileSys) (file1 file2 : file_t) : Bool :=
  match fs file1.name with
  | none => false
  | some s1 =>
    match fs file2.name with
    | none => false
    | some s2 => compare_loop s1 s2

/-- A stream with no read errors. -/
def errFree (s : List ReadResult) : Prop := ReadResult.err ∉ s

instance (s : List ReadResult) : Decidable (errFree s) :=
  inferInstanceAs (Decidable (ReadResult.err ∉ s))

/-! ### Phase three: the equivalence resolver (digest_foreach, lines 508-552) -/
/-- The master/good/bad rounds of `digest_foreach`: take the head of the
working list as master, compare every other record against it, collect the
equal ones as `good` and the others as `bad`; if `good` is non-empty an
equivalence group `(master, good)` is emitted; then repeat on `bad`.
Fuel-driven: fuel `l.length` suffices because `bad` is shorter than the
working list. -/
def resolve_aux (fs : FileSys) : Nat → List file_t → List (file_t × List file_t)
  | 0, _ => []
  | _+1, [] => []
  | fuel+1, m :: rest =>
    (if (rest.filter (fun x => compare_files fs m x)).isEmpty then []
     else [(m, rest.filter (fun x => compare_files fs m x))]) ++
    resolve_aux fs fuel (rest.filter (fun x => !(compare_files fs m x)))

/-- The list of equivalence groups `digest_foreach` emits for one (already
sorted and hard-link-filtered) digest bucket. -/
def resolve (fs : FileSys) (l : List file_t) : List (file_t × List file_t) :=
  resolve_aux fs l.length l

/-- Membership of a record in an emitted equivalence group (as master or
as a confirmed duplicate). -/
def inGroup (g : file_t × List file_t) (x : file_t) : Prop := x = g.1 ∨ x ∈ g.2

/-- Two records end up in the same emitted equivalence group. -/
def sameGroup (gs : List (file_t × List file_t)) (a b : file_t) : Prop :=
  ∃ g ∈ gs, inGroup g a ∧ inGroup g b

instance (g : file_t × List file_t) (x : file_t) : Decidable (inGroup g x) :=
  inferInstanceAs (Decidable (x = g.1 ∨ x ∈ g.2))

instance (gs : List (file_t × List file_t)) (a b : file_t) :
    Decidable (sameGroup gs a b) :=
  inferInstanceAs (Decidable (∃ g ∈ gs, inGroup g a ∧ inGroup g b))

/-! ### Sorting a bucket (sort_compare, g_list_sort) -/
/-- C `strcmp` on path names, modelled as lexicographic string comparison
(sign only: negative, zero or positive). -/
def strcmp (a b : String) : Int := if a = b then 0 else if a < b then -1 else 1

/-- 2^64: the modulus of the unsigned `nlink_t` type. -/
def U64 : Nat := 2 ^ 64

/-- 2^32: the modulus of the 32-bit `gint` type. -/
def U32 : Nat := 2 ^ 32

/-- Conversion of an unsigned 64-bit value to a 32-bit `gint`: keep the
low 32 bits, interpreted in two's complement. -/
def gint_of_u64 (x : Nat) : Int :=
  if x % U32 < 2 ^ 31 then ((x % U32 : Nat) : Int) else ((x % U32 : Nat) : Int) - (U32 : Nat)

/-- `sort_compare` (dupfind.c lines 284-293): `res = fb->st_nlink -
fa->st_nlink` is computed in the unsigned `nlink_t` type and assigned to a
`gint`; when the result is 0 the tie is broken by
`strcmp(fa->name, fb->name)`. -/
def sort_compare (a b : file_t) : Int :=
  let res := gint_of_u64 ((b.st_nlink % U64 + U64 - a.st_nlink % U64) % U64)
  if res = 0 then strcmp a.name b.name else res

/-- The ordering the spec claims for a sorted bucket: descending link
count, ties broken by ascending (lexicographic) path. -/
def sortOrd (a b : file_t) : Prop :=
  b.st_nlink < a.st_nlink ∨ (b.st_nlink = a.st_nlink ∧ a.name ≤ b.name)

/-- glib's stable list merge (`g_list_sort_merge`): the element from the
first list is taken when `compare_func <= 0`.  Fuel-driven; fuel
`l1.length + l2.length` suffices. -/
def gmerge_aux (le : file_t → file_t → Bool) :
    Nat → List file_t → List file_t → List file_t
  | 0, l1, l2 => l1 ++ l2
  | _+1, [], l2 => l2
  | _+1, l1, [] => l1
  | fuel+1, a :: l1, b :: l2 =>
    if le a b then a :: gmerge_aux le fuel l1 (b :: l2)
    else b :: gmerge_aux le fuel (a :: l1) l2

/-- glib's `g_list_sort`: a stable merge sort driven by the comparison
function (modelled from the documented contract of the external library;
the exact split point does not affect the sorted result). -/
def gsort_aux (le : file_t → file_t → Bool) : Nat → List file_t → List file_t
  | 0, l => l
  | _+1, [] => []
  | _+1, [a] => [a]
  | fuel+1, a :: b :: l =>
    gmerge_aux le (a :: b :: l).length
      (gsort_aux le fuel ((a :: b :: l).take ((a :: b :: l).length / 2)))
      (gsort_aux le fuel ((a :: b :: l).drop ((a :: b :: l).length / 2)))

/-- `g_list_sort(file_list->files, sort_compare)` as called by
`digest_foreach` (dupfind.c line 517). -/
def glist_sort (l : List file_t) : List file_t :=
  gsort_aux (fun a b => decide (sort_compare a b ≤ 0)) l.length l

/-! ### Command line option bits (dupfind.c lines 65-79) -/
def OPT_QUIET : Nat := 0x001

def OPT_RECURSE : Nat := 0x002

def OPT_SYMLINKS : Nat := 0x004

def OPT_HARDLINKS : Nat := 0x008

def OPT_NOEMPTY : Nat := 0x010

def OPT_SAMELINE : Nat := 0x020

def OPT_OMITFIRST : Nat := 0x040

def OPT_SHOWSIZE : Nat := 0x080

def OPT_DELETE : Nat := 0x100

def OPT_LINK : Nat := 0x200

def OPT_STDIN : Nat := 0x400

def OPT_VERBOSE : Nat := 0x800

/-! ### Hard link filtering (filter_links, dupfind.c lines 299-327) -/
/-- The identity test of `filter_links`:
`fp2->st_dev == fp1->st_dev && fp2->st_ino == fp1->st_ino`. -/
def same_storage (a b : file_t) : Bool := a.st_dev == b.st_dev && a.st_ino == b.st_ino

/-- The loop of `filter_links`: walk the remaining input, appending a
record to the accumulated output only when no record already in the output
shares its (device, inode) identity. -/
def fl_aux (acc : List file_t) : List file_t → List file_t
  | [] => acc
  | fp1 :: rest =>
    if acc.any (fun fp2 => same_storage fp2 fp1) then fl_aux acc rest
    else fl_aux (acc ++ [fp1]) rest

/-- `filter_links` (dupfind.c lines 299-327): keep one file from any set
hard-linked together; the first element is always kept. -/
def filter_links : List file_t → List file_t
  | [] => []
  | x :: rest => fl_aux [x] rest

/-- Modelled from the spec: "filter the sorted sequence to at most one
record per distinct (deviceId, inodeNumber) pair, preserving the sort
order and keeping the first-seen record for each identity".  A record is
kept exactly when no earlier record of the input had its identity. -/
def firstSeen_aux (seen : List file_t) : List file_t → List file_t
  | [] => []
  | f :: r =>
    if seen.any (fun g => same_storage g f) then firstSeen_aux (seen ++ [f]) r
    else f :: firstSeen_aux (seen ++ [f]) r

/-- Spec-side filter: keep each record iff it is the first of its
(deviceId, inodeNumber) identity in input order. -/
def firstSeen (l : List file_t) : List file_t := firstSeen_aux [] l

/-- The sort-then-maybe-filter preprocessing of `digest_foreach`
(dupfind.c lines 517-519): the hard-link filter runs only when
`OPT_HARDLINKS` is not set. -/
def prepare (options : Nat) (l : List file_t) : List file_t :=
  if options &&& OPT_HARDLINKS = 0 then filter_links (glist_sort l) else glist_sort l

/-! ### Configuration checks of main (dupfind.c lines 608-668) -/
/-- The option bit a recognised option character ors into `options`
(the switch in `main`, lines 610-657).  `V` and `h` print and return
immediately and an unrecognised character aborts with status 1, so none
of them contributes a bit. -/
def optval (c : Char) : Nat :=
  if c = 'q' then OPT_QUIET
  else if c = 'r' then OPT_RECURSE
  else if c = 's' then OPT_SYMLINKS
  else if c = 'H' then OPT_HARDLINKS
  else if c = 'n' then OPT_NOEMPTY
  else if c = '1' then OPT_SAMELINE
  else if c = 'f' then OPT_OMITFIRST
  else if c = 'S' then OPT_SHOWSIZE
  else if c = 'd' then OPT_DELETE
  else if c = 'l' then OPT_LINK
  else if c = 'i' then OPT_STDIN
  else if c = 'v' then OPT_VERBOSE
  else 0

/-- The accumulated option bitmap after the getopt loop. -/
def build_options : List Char → Nat
  | [] => 0
  | c :: r => build_options r ||| optval c

/-- Result of `main`'s configuration checks: either a fatal configuration
error with the returned exit status, reached before any of the three
processing phases, or the decision to run the phases with the parsed
option bitmap. -/
inductive MainOutcome where
  | config_error (status : Nat)
  | run (options : Nat)
deriving DecidableEq, Repr

/-- The configuration checks of `main` (dupfind.c lines 659-668): first
`(options & (OPT_DELETE|OPT_LINK)) == (OPT_DELETE|OPT_LINK)` aborts with
status 1; then "nothing to do" (no arguments and no `--stdin`) aborts with
status 1; otherwise the phases run. -/
def main_config (flags : List Char) (nargs : Nat) : MainOutcome :=
  if build_options flags &&& (OPT_DELETE ||| OPT_LINK) = OPT_DELETE ||| OPT_LINK then
    MainOutcome.config_error 1
  else if nargs = 0 ∧ build_options flags &&& OPT_STDIN = 0 then
    MainOutcome.config_error 1
  else
    MainOutcome.run (build_options flags)

/-! ### Phase two: digests (file_foreach, dupfind.c lines 242-277) -/
/-- The bytes `file_foreach`'s read loop actually feeds to the digest:
`while ((nbytes = read(fd, buf, sizeof(buf))) > 0)` consumes chunks until
a read returns 0 (end of file) or -1 (error); in both cases the loop just
exits. -/
def bytes_read : List ReadResult → List Nat
  | [] => []
  | ReadResult.err :: _ => []
  | ReadResult.chunk d :: rest => if d = [] then [] else d ++ bytes_read rest

/-- The bucket entry `file_foreach` produces for one file: `none` when
`open` fails (warning, file skipped), otherwise the file is inserted into
the bucket keyed by the digest of whatever bytes the read loop consumed.
The digest value is modelled by the byte sequence fed to the checksum
(`g_checksum_get_string` cannot fail for MD5). -/
def digest_entry (fs : FileSys) (f : file_t) : Option (List Nat) :=
  match fs f.name with
  | none => none
  | some s => some (bytes_read s)

/-- Whether `file_foreach` emits a warning for this file: only the
`unable to open file` branch warns (the digest-failure branch is dead for
MD5, and a failed `read` is not checked at all). -/
def digest_warned (fs : FileSys) (f : file_t) : Bool := (fs f.name).isNone

/-! ### The interactive delete session (delete_files, dupfind.c lines 392-474) -/
/-- A value of the `delete_t` type: a file plus its keep/delete flag. -/
structure delete_t where
  file : file_t
  keep : Bool
deriving DecidableEq, Repr

/-- The initial disposition list built by `delete_files` (lines 405-416):
the master first with `keep = 1`, then every duplicate with `keep = 0`. -/
def mk_delete_list (master : file_t) (dups : List file_t) : List delete_t :=
  ⟨master, true⟩ :: dups.map (fun f => ⟨f, false⟩)

/-- C `isspace` on the characters `atoi` skips. -/
def isspace_c (c : Char) : Bool :=
  c = ' ' || c = '\t' || c = '\n' || c = '\x0b' || c = '\x0c' || c = '\r'

/-- The digit-accumulation loop of C `atoi`. -/
def atoi_digits : List Char → Nat → Nat
  | [], acc => acc
  | c :: r, acc =>
    if '0' ≤ c ∧ c ≤ '9' then atoi_digits r (acc * 10 + (c.toNat - '0'.toNat))
    else acc

/-- The mathematical value of the digit string C `atoi` parses: skip
leading whitespace, accept an optional sign, then consume a (possibly
empty) run of digits. -/
def atoi_raw : List Char → Int
  | [] => 0
  | c :: r =>
    if isspace_c c then atoi_raw r
    else if c = '-' then -(atoi_digits r 0 : Int)
    else if c = '+' then (atoi_digits r 0 : Int)
    else (atoi_digits (c :: r) 0 : Int)

/-- `strtol`'s overflow behaviour: a value outside the 64-bit `long`
range is clamped to `LONG_MAX` / `LONG_MIN`. -/
def strtol_of (v : Int) : Int :=
  if v > 9223372036854775807 then 9223372036854775807
  else if v < -9223372036854775808 then -9223372036854775808
  else v

/-- Conversion of a 64-bit `long` value to a 32-bit `int`: keep the low
32 bits, interpreted in two's complement (as on the reference platform). -/
def int_of_long (v : Int) : Int :=
  if v % 4294967296 < 2147483648 then v % 4294967296
  else v % 4294967296 - 4294967296

/-- C `atoi` as glibc implements it, `(int) strtol(s, NULL, 10)`: the
parsed value is clamped to the `long` range by `strtol` and then
truncated to the 32-bit `int` the caller stores it in — so for example
the line `4294967297` reads as the int 1. -/
def atoi_c (cs : List Char) : Int := int_of_long (strtol_of (atoi_raw cs))

/-- C `strncmp`, comparing at most `n` characters; the end of a char list
stands for the terminating NUL (the modelled strings contain no embedded
NUL). -/
def strncmp_c : Nat → List Char → List Char → Int
  | 0, _, _ => 0
  | _+1, [], [] => 0
  | _+1, [], c :: _ => -(c.toNat : Int)
  | _+1, c :: _, [] => (c.toNat : Int)
  | n+1, c1 :: r1, c2 :: r2 =>
    if c1 = c2 then strncmp_c n r1 r2 else (c1.toNat : Int) - (c2.toNat : Int)

/-- The buffer `fgets` leaves for an input line: the line's characters
followed by the newline (lines fit the 20-byte buffer). -/
def bufOf (line : String) : List Char := line.data ++ ['\n']

/-- The go-ahead test of `delete_files` (line 442):
`strncmp(buf, "go", 2) == 0`, a two-character prefix match. -/
def goCheck (line : String) : Bool := strncmp_c 2 (bufOf line) ['g', 'o'] == 0

/-- `atoi(buf)` on an input line (line 458). -/
def atoi_line (line : String) : Int := atoi_c (bufOf line)

/-- Toggle the keep flag of entry `n` (0-based), as
`elem->keep = 1 - elem->keep` after `g_list_nth_data(delete_list, i-1)`;
out of range leaves the list unchanged ("no file number" message). -/
def toggle_nth (dl : List delete_t) (n : Nat) : List delete_t :=
  match dl[n]? with
  | some e => dl.set n ⟨e.file, !e.keep⟩
  | none => dl

/-- The interactive loop of `delete_files` (lines 418-470), reduced to its
effect: returns the names unlinked for this group and the input lines left
over for subsequent groups.  End of input aborts with nothing deleted; a
line whose first two characters are `go` unlinks every entry still marked
delete and ends the session; a positive number toggles that entry; any
other input just re-prompts. -/
def delete_session (dl : List delete_t) : List String → List String × List String
  | [] => ([], [])
  | line :: rest =>
    if goCheck line then
      (((dl.filter (fun e => !e.keep)).map (fun e => e.file.name)), rest)
    else if 0 < atoi_line line then
      delete_session (toggle_nth dl ((atoi_line line).toNat - 1)) rest
    else
      delete_session dl rest

/-- Delete-mode processing of one digest bucket: the master/good/bad
rounds of `digest_foreach` with `delete_files` run on each emitted group,
threading the operator's input lines from one session to the next.
Fuel-driven; fuel `l.length` suffices. -/
def delete_rounds_aux (fs : FileSys) :
    Nat → List file_t → List String → List String × List String
  | 0, _, ins => ([], ins)
  | _+1, [], ins => ([], ins)
  | fuel+1, m :: rest, ins =>
    if (rest.filter (fun x => compare_files fs m x)).isEmpty then
      delete_rounds_aux fs fuel (rest.filter (fun x => !(compare_files fs m x))) ins
    else
      let s := delete_session
        (mk_delete_list m (rest.filter (fun x => compare_files fs m x))) ins
      let t := delete_rounds_aux fs fuel
        (rest.filter (fun x => !(compare_files fs m x))) s.2
      (s.1 ++ t.1, t.2)

def delete_rounds (fs : FileSys) (l : List file_t) (ins : List String) :
    List String × List String :=
  delete_rounds_aux fs l.length l ins

/-- Link-mode processing of one digest bucket: every candidate that
compares equal to the round's master is unlinked (and re-created as a hard
link) by `link_pair`; the rounds then continue on the bad list. -/
def link_unlinks_aux (fs : FileSys) : Nat → List file_t → List String
  | 0, _ => []
  | _+1, [] => []
  | fuel+1, m :: rest =>
    (rest.filter (fun x => compare_files fs m x)).map (fun f => f.name) ++
    link_unlinks_aux fs fuel (rest.filter (fun x => !(compare_files fs m x)))

def link_unlinks (fs : FileSys) (l : List file_t) : List String :=
  link_unlinks_aux fs l.length l

/-- The masters chosen by the successive rounds of `digest_foreach` on one
bucket (the head of the working list in each round). -/
def round_masters_aux (fs : FileSys) : Nat → List file_t → List file_t
  | 0, _ => []
  | _+1, [] => []
  | fuel+1, m :: rest =>
    m :: round_masters_aux fs fuel (rest.filter (fun x => !(compare_files fs m x)))

def round_masters (fs : FileSys) (l : List file_t) : List file_t :=
  round_masters_aux fs l.length l

/-- The names unlinked while processing one bucket in each mode: link mode
unlinks each confirmed duplicate inside `link_pair`; delete mode unlinks
whatever the interactive sessions decide; list mode only prints. -/
def phase3_unlinks (options : Nat) (fs : FileSys) (l : List file_t)
    (ins : List String) : List String :=
  if options &&& OPT_LINK ≠ 0 then link_unlinks fs l
  else if options &&& OPT_DELETE ≠ 0 then (delete_rounds fs l ins).1
  else []

/-! ### Concrete fixtures used by the closed instances below -/
def wfileA : file_t := ⟨"wa", 2, 1, 0, 0, 1⟩

def wfileB : file_t := ⟨"wb", 1, 1, 0, 0, 2⟩

def wfileX : file_t := ⟨"wx", 1, 1, 0, 0, 7⟩

def wfs : FileSys := fun n =>
  if n = "wa" then some (toStream [1, 2])
  else if n = "wb" then some (toStream [3]) else none

def wfileC : file_t := ⟨"wc", 1, 1, 0, 0, 3⟩

def wfileD : file_t := ⟨"wd", 1, 1, 0, 0, 4⟩

def wfs2 : FileSys := fun n =>
  if n = "wc" ∨ n = "wd" then some (toStream [7]) else none

def mC : file_t := ⟨"ma", 1, 1, 0, 0, 5⟩

def dC : file_t := ⟨"da", 1, 1, 0, 0, 6⟩

def fsC : FileSys := fun n =>
  if n = "ma" ∨ n = "da" then some (toStream [5]) else none

def fErr : file_t := ⟨"er", 1, 1, 0, 0, 8⟩

def fsErr : FileSys := fun n =>
  if n = "er" then some [ReadResult.chunk [1], ReadResult.err] else none

/-! ### Lemmas about the comparison loop -/
theorem chunksOf_aux_congr (k : Nat) (hk : 0 < k) :
    ∀ f₁ f₂ (l : List Nat), l.length ≤ f₁ → l.length ≤ f₂ →
      chunksOf_aux k f₁ l = chunksOf_aux k f₂ l := by
  intro f₁
  induction f₁ with
  | zero =>
    intro f₂ l h1 _
    have : l = [] := List.eq_nil_of_length_eq_zero (Nat.le_zero.mp h1)
    subst this
    cases f₂ <;> rfl
  | succ f₁ ih =>
    intro f₂ l h1 h2
    cases l with
    | nil => cases f₂ <;> rfl
    | cons a l' =>
      cases f₂ with
      | zero => simp at h2
      | succ f₂ =>
        simp only [chunksOf_aux]
        congr 1
        apply ih
        · have := List.length_drop k (a :: l')
          simp at h1 ⊢
          omega
        · have := List.length_drop k (a :: l')
          simp at h2 ⊢
          omega

theorem chunksOf_nil (k : Nat) : chunksOf k [] = [] := rfl

theorem chunksOf_cons (k : Nat) (hk : 0 < k) (l : List Nat) (hl : l ≠ []) :
    chunksOf k l = l.take k :: chunksOf k (l.drop k) := by
  obtain ⟨a, l', rfl⟩ := List.exists_cons_of_ne_nil hl
  show chunksOf_aux k (l'.length + 1) (a :: l') = _
  simp only [chunksOf_aux]
  congr 1
  apply chunksOf_aux_congr k hk
  · simp; omega
  · simp

theorem take_ne_nil_of_pos {k : Nat} (hk : 0 < k) {l : List Nat} (hl : l ≠ []) :
    l.take k ≠ [] := by
  obtain ⟨a, l', rfl⟩ := List.exists_cons_of_ne_nil hl
  cases k with
  | zero => omega
  | succ k => simp

/-- Lockstep chunk comparison of two error-free regular files succeeds
exactly when their byte contents are equal. -/
theorem compare_loop_chunksOf (k : Nat) (hk : 0 < k) (x y : List Nat) :
    compare_loop ((chunksOf k x).map ReadResult.chunk)
      ((chunksOf k y).map ReadResult.chunk) = true ↔ x = y := by
  rcases eq_or_ne x [] with hx | hx
  · subst hx
    rcases eq_or_ne y [] with hy | hy
    · subst hy
      simp [chunksOf_nil, compare_loop]
    · rw [chunksOf_nil, chunksOf_cons k hk y hy]
      have hne := take_ne_nil_of_pos hk hy
      simp [compare_loop, List.isEmpty_iff, hne, Ne.symm hy]
  · rcases eq_or_ne y [] with hy | hy
    · subst hy
      rw [chunksOf_nil, chunksOf_cons k hk x hx]
      have hne := take_ne_nil_of_pos hk hx
      simp [compare_loop, List.isEmpty_iff, hne, hx]
    · rw [chunksOf_cons k hk x hx, chunksOf_cons k hk y hy]
      have hnex := take_ne_nil_of_pos hk hx
      simp only [List.map_cons, compare_loop]
      rw [if_neg (by tauto)]
      by_cases hxy : x.take k = y.take k
      · rw [if_pos hxy]
        have hlen : (x.drop k).length < x.length := by
          rw [List.length_drop]
          have : x.length ≠ 0 := by simpa using hx
          omega
        rw [compare_loop_chunksOf k hk (x.drop k) (y.drop k)]
        constructor
        · intro h
          calc x = x.take k ++ x.drop k := (List.take_append_drop k x).symm
            _ = y.take k ++ y.drop k := by rw [hxy, h]
            _ = y := List.take_append_drop k y
        · intro h; rw [h]
      · rw [if_neg hxy]
        constructor
        · intro h; exact absurd h (by simp)
        · intro h; exact absurd (by rw [h]) hxy
termination_by x.length
decreasing_by
  rw [List.length_drop]
  have : x.length ≠ 0 := by simpa using hx
  omega

/-- If both files open onto error-free chunked regular-file streams, the
comparison succeeds exactly when the two byte contents are equal. -/
theorem compare_files_content (fs : FileSys) (a b : file_t) (c1 c2 : List Nat)
    (ha : fs a.name = some (toStream c1)) (hb : fs b.name = some (toStream c2)) :
    compare_files fs a b = true ↔ c1 = c2 := by
  unfold compare_files
  rw [ha, hb]
  exact compare_loop_chunksOf CHUNK_SIZE (by norm_num [CHUNK_SIZE]) c1 c2

theorem compare_loop_symm : ∀ s1 s2 : List ReadResult,
    compare_loop s1 s2 = compare_loop s2 s1 := by
  intro s1
  induction s1 with
  | nil =>
    intro s2
    cases s2 with
    | nil => rfl
    | cons r s2' => cases r <;> rfl
  | cons r1 s1' ih =>
    intro s2
    cases s2 with
    | nil => cases r1 <;> rfl
    | cons r2 s2' =>
      cases r1 with
      | err => cases r2 <;> rfl
      | chunk d1 =>
        cases r2 with
        | err => rfl
        | chunk d2 =>
          simp only [compare_loop]
          by_cases heq : d1 = d2
          · subst heq
            by_cases h0 : d1 = []
            · rw [if_pos ⟨h0, h0⟩, if_pos ⟨h0, h0⟩]
            · have hA : ¬(d1 = [] ∧ d1 = []) := fun h' => h0 h'.1
              rw [if_neg hA, if_neg hA, if_pos rfl, if_pos rfl, ih]
          · have hA : ¬(d1 = [] ∧ d2 = []) := fun h' => heq (h'.1.trans h'.2.symm)
            have hB : ¬(d2 = [] ∧ d1 = []) := fun h' => heq (h'.2.trans h'.1.symm)
            rw [if_neg hA, if_neg hB, if_neg heq, if_neg (Ne.symm heq)]

theorem compare_loop_refl (s : List ReadResult) (h : errFree s) :
    compare_loop s s = true := by
  induction s with
  | nil => rfl
  | cons r s' ih =>
    cases r with
    | err => exact absurd (List.mem_cons_self _ _) h
    | chunk d =>
      simp only [compare_loop]
      by_cases h0 : d = []
      · rw [if_pos ⟨h0, h0⟩]
      · have hA : ¬(d = [] ∧ d = []) := fun h' => h0 h'.1
        rw [if_neg hA, if_pos trivial]
        exact ih (fun hm => h (List.mem_cons_of_mem _ hm))

theorem resolve_aux_sound (fs : FileSys) (c : file_t → List Nat) :
    ∀ (fuel : Nat) (l : List file_t), l.length ≤ fuel →
      (∀ x ∈ l, fs x.name = some (toStream (c x))) →
      ∀ g ∈ resolve_aux fs fuel l, g.1 ∈ l ∧ ∀ x ∈ g.2, x ∈ l ∧ c x = c g.1 := by
  intro fuel
  induction fuel with
  | zero =>
    intro l hlen _ g hg
    have : l = [] := List.eq_nil_of_length_eq_zero (Nat.le_zero.mp hlen)
    subst this
    simp [resolve_aux] at hg
  | succ fuel ih =>
    intro l hlen hc g hg
    cases l with
    | nil => simp [resolve_aux] at hg
    | cons m rest =>
      simp only [resolve_aux, List.mem_append] at hg
      rcases hg with hg | hg
      · have hgm : g = (m, rest.filter (fun x => compare_files fs m x)) := by
          by_cases hgood : (rest.filter (fun x => compare_files fs m x)).isEmpty
          · rw [if_pos hgood] at hg; simp at hg
          · rw [if_neg hgood] at hg; simpa using hg
        subst hgm
        refine ⟨List.mem_cons_self m rest, ?_⟩
        intro x hx
        rw [List.mem_filter] at hx
        refine ⟨List.mem_cons_of_mem m hx.1, ?_⟩
        have := (compare_files_content fs m x (c m) (c x)
          (hc m (List.mem_cons_self m rest)) (hc x (List.mem_cons_of_mem m hx.1))).mp hx.2
        exact this.symm
      · have hblen : (rest.filter (fun x => !(compare_files fs m x))).length ≤ fuel := by
          have := List.length_filter_le (fun x => !(compare_files fs m x)) rest
          simp at hlen
          omega
        have hbc : ∀ x ∈ rest.filter (fun x => !(compare_files fs m x)),
            fs x.name = some (toStream (c x)) := by
          intro x hx
          exact hc x (List.mem_cons_of_mem m (List.mem_filter.mp hx).1)
        obtain ⟨h1, h2⟩ := ih _ hblen hbc g hg
        refine ⟨List.mem_cons_of_mem m (List.mem_filter.mp h1).1, ?_⟩
        intro x hx
        obtain ⟨hx1, hx2⟩ := h2 x hx
        exact ⟨List.mem_cons_of_mem m (List.mem_filter.mp hx1).1, hx2⟩

theorem resolve_aux_complete (fs : FileSys) (c : file_t → List Nat) :
    ∀ (fuel : Nat) (l : List file_t), l.length ≤ fuel →
      (∀ x ∈ l, fs x.name = some (toStream (c x))) →
      ∀ a b, a ∈ l → b ∈ l → a ≠ b → c a = c b →
        sameGroup (resolve_aux fs fuel l) a b := by
  intro fuel
  induction fuel with
  | zero =>
    intro l hlen _ a b ha _ _ _
    have : l = [] := List.eq_nil_of_length_eq_zero (Nat.le_zero.mp hlen)
    subst this
    simp at ha
  | succ fuel ih =>
    intro l hlen hc a b ha hb hab hcab
    cases l with
    | nil => simp at ha
    | cons m rest =>
      have hcmp : ∀ x ∈ rest, compare_files fs m x = true ↔ c m = c x := by
        intro x hx
        exact compare_files_content fs m x (c m) (c x)
          (hc m (List.mem_cons_self m rest)) (hc x (List.mem_cons_of_mem m hx))
      by_cases hcm : c a = c m
      · -- both a and b belong to the head group (m, good)
        have hmem : ∀ x, x ∈ m :: rest → c x = c m →
            inGroup (m, rest.filter (fun y => compare_files fs m y)) x := by
          intro x hx hcx
          rcases List.mem_cons.mp hx with rfl | hx'
          · exact Or.inl rfl
          · exact Or.inr (List.mem_filter.mpr ⟨hx', (hcmp x hx').mpr hcx.symm⟩)
        have hina := hmem a ha hcm
        have hinb := hmem b hb (hcab.symm.trans hcm)
        have hgood : ¬(rest.filter (fun y => compare_files fs m y)).isEmpty := by
          -- a ≠ b, and both are in {m} ∪ good, so good is non-empty
          rw [List.isEmpty_iff]
          intro hemp
          rcases hina with rfl | hina'
          · rcases hinb with rfl | hinb'
            · exact hab rfl
            · rw [hemp] at hinb'; simp at hinb'
          · rw [hemp] at hina'; simp at hina'
        refine ⟨(m, rest.filter (fun y => compare_files fs m y)), ?_, hina, hinb⟩
        simp only [resolve_aux, List.mem_append]
        left
        rw [if_neg hgood]
        simp
      · -- both a and b survive into the bad list; use the inductive hypothesis
        have hstep : ∀ x, x ∈ m :: rest → c x = c a →
            x ∈ rest.filter (fun y => !(compare_files fs m y)) := by
          intro x hx hcx
          rcases List.mem_cons.mp hx with rfl | hx'
          · exact absurd hcx.symm hcm
          · refine List.mem_filter.mpr ⟨hx', ?_⟩
            have : ¬(compare_files fs m x = true) := by
              rw [hcmp x hx']
              intro h
              exact hcm (hcx.symm.trans h.symm)
            simpa using this
        have hba := hstep a ha rfl
        have hbb := hstep b hb hcab.symm
        have hblen : (rest.filter (fun x => !(compare_files fs m x))).length ≤ fuel := by
          have := List.length_filter_le (fun x => !(compare_files fs m x)) rest
          simp at hlen
          omega
        have hbc : ∀ x ∈ rest.filter (fun x => !(compare_files fs m x)),
            fs x.name = some (toStream (c x)) := by
          intro x hx
          exact hc x (List.mem_cons_of_mem m (List.mem_filter.mp hx).1)
        obtain ⟨g, hg, hga, hgb⟩ := ih _ hblen hbc a b hba hbb hab hcab
        refine ⟨g, ?_, hga, hgb⟩
        simp only [resolve_aux, List.mem_append]
        right
        exact hg

theorem gint_diff (a b : Nat) (ha : a < 2 ^ 31) (hb : b < 2 ^ 31) :
    gint_of_u64 ((b % U64 + U64 - a % U64) % U64) = (b : Int) - (a : Int) := by
  have e64 : U64 = 18446744073709551616 := by norm_num [U64]
  have e32 : U32 = 4294967296 := by norm_num [U32]
  have e31 : (2 : Nat) ^ 31 = 2147483648 := by norm_num
  rw [e31] at ha hb
  unfold gint_of_u64
  rw [e64, e32, e31]
  rcases le_or_lt a b with hab | hab
  · have h1 : (b % 18446744073709551616 + 18446744073709551616 - a % 18446744073709551616) %
        18446744073709551616 = b - a := by omega
    rw [h1]
    have h2 : (b - a) % 4294967296 = b - a := by omega
    rw [h2, if_pos (by omega)]
    push_cast [hab]
    ring
  · have h1 : (b % 18446744073709551616 + 18446744073709551616 - a % 18446744073709551616) %
        18446744073709551616 = 18446744073709551616 - (a - b) := by omega
    rw [h1]
    have h2 : (18446744073709551616 - (a - b)) % 4294967296 = 4294967296 - (a - b) := by
      omega
    rw [h2, if_neg (by omega)]
    have h3 : a - b ≤ 4294967296 := by omega
    push_cast [h3]
    omega

theorem sort_compare_le_iff (a b : file_t)
    (ha : a.st_nlink < 2 ^ 31) (hb : b.st_nlink < 2 ^ 31) :
    sort_compare a b ≤ 0 ↔ sortOrd a b := by
  unfold sort_compare
  rw [gint_diff a.st_nlink b.st_nlink ha hb]
  simp only []
  rcases lt_trichotomy a.st_nlink b.st_nlink with h | h | h
  · rw [if_neg (by omega : ¬((b.st_nlink : Int) - (a.st_nlink : Int) = 0))]
    constructor
    · intro hle; exfalso; omega
    · rintro (h' | ⟨h', _⟩) <;> omega
  · rw [if_pos (by omega : (b.st_nlink : Int) - (a.st_nlink : Int) = 0)]
    unfold strcmp sortOrd
    by_cases hn : a.name = b.name
    · rw [if_pos hn]
      constructor
      · intro _; exact Or.inr ⟨h.symm, le_of_eq hn⟩
      · intro _; omega
    · rw [if_neg hn]
      by_cases hlt : a.name < b.name
      · rw [if_pos hlt]
        constructor
        · intro _; exact Or.inr ⟨h.symm, le_of_lt hlt⟩
        · intro _; omega
      · rw [if_neg hlt]
        constructor
        · intro hle; exfalso; omega
        · rintro (h' | ⟨_, h'⟩)
          · omega
          · exfalso
            have : b.name < a.name :=
              lt_of_le_of_ne (le_of_not_lt hlt) (Ne.symm hn)
            exact absurd h' (not_le.mpr this)
  · rw [if_neg (by omega : ¬((b.st_nlink : Int) - (a.st_nlink : Int) = 0))]
    constructor
    · intro _; exact Or.inl h
    · intro _; omega

theorem sortOrd_total (a b : file_t) : sortOrd a b ∨ sortOrd b a := by
  unfold sortOrd
  rcases lt_trichotomy a.st_nlink b.st_nlink with h | h | h
  · exact Or.inr (Or.inl h)
  · rcases le_total a.name b.name with hn | hn
    · exact Or.inl (Or.inr ⟨h.symm, hn⟩)
    · exact Or.inr (Or.inr ⟨h, hn⟩)
  · exact Or.inl (Or.inl h)

theorem sortOrd_trans (a b c : file_t) :
    sortOrd a b → sortOrd b c → sortOrd a c := by
  unfold sortOrd
  rintro (h1 | ⟨h1, h1n⟩) (h2 | ⟨h2, h2n⟩)
  · exact Or.inl (by omega)
  · exact Or.inl (by omega)
  · exact Or.inl (by omega)
  · exact Or.inr ⟨by omega, le_trans h1n h2n⟩

theorem gmerge_aux_perm (le : file_t → file_t → Bool) :
    ∀ fuel l1 l2, (gmerge_aux le fuel l1 l2).Perm (l1 ++ l2) := by
  intro fuel
  induction fuel with
  | zero => intro l1 l2; exact List.Perm.refl _
  | succ fuel ih =>
    intro l1 l2
    cases l1 with
    | nil => simp [gmerge_aux]
    | cons a l1' =>
      cases l2 with
      | nil => simp [gmerge_aux]
      | cons b l2' =>
        simp only [gmerge_aux]
        by_cases hab : le a b
        · rw [if_pos hab]
          exact List.Perm.cons a (ih l1' (b :: l2'))
        · rw [if_neg hab]
          refine List.Perm.trans (List.Perm.cons b (ih (a :: l1') l2')) ?_
          exact List.perm_middle.symm

theorem gsort_aux_perm (le : file_t → file_t → Bool) :
    ∀ fuel l, (gsort_aux le fuel l).Perm l := by
  intro fuel
  induction fuel with
  | zero => intro l; exact List.Perm.refl _
  | succ fuel ih =>
    intro l
    match l with
    | [] => exact List.Perm.refl _
    | [a] => exact List.Perm.refl _
    | a :: b :: l' =>
      simp only [gsort_aux]
      refine List.Perm.trans (gmerge_aux_perm le _ _ _) ?_
      refine List.Perm.trans (List.Perm.append (ih _) (ih _)) ?_
      rw [List.take_append_drop]

theorem gmerge_aux_pairwise {R : file_t → file_t → Prop} (le : file_t → file_t → Bool)
    (P : file_t → Prop)
    (hiff : ∀ a b, P a → P b → (le a b = true ↔ R a b))
    (htot : ∀ a b, P a → P b → R a b ∨ R b a)
    (htrans : ∀ a b c, P a → P b → P c → R a b → R b c → R a c) :
    ∀ fuel l1 l2, l1.length + l2.length ≤ fuel →
      (∀ x ∈ l1, P x) → (∀ x ∈ l2, P x) →
      l1.Pairwise R → l2.Pairwise R →
      (gmerge_aux le fuel l1 l2).Pairwise R := by
  intro fuel
  induction fuel with
  | zero =>
    intro l1 l2 hlen _ _ _ _
    have h1 : l1 = [] := by cases l1 <;> simp_all
    have h2 : l2 = [] := by cases l2 <;> simp_all
    subst h1; subst h2
    exact List.Pairwise.nil
  | succ fuel ih =>
    intro l1 l2 hlen hp1 hp2 hs1 hs2
    cases l1 with
    | nil => simpa [gmerge_aux] using hs2
    | cons a l1' =>
      cases l2 with
      | nil => simpa [gmerge_aux] using hs1
      | cons b l2' =>
        have hPa : P a := hp1 a (List.mem_cons_self _ _)
        have hPb : P b := hp2 b (List.mem_cons_self _ _)
        simp only [gmerge_aux]
        by_cases hab : le a b
        · rw [if_pos hab]
          have hRab : R a b := (hiff a b hPa hPb).mp hab
          refine List.Pairwise.cons ?_ ?_
          · intro y hy
            have hy' : y ∈ l1' ++ b :: l2' :=
              (gmerge_aux_perm le fuel l1' (b :: l2')).mem_iff.mp hy
            rcases List.mem_append.mp hy' with hy1 | hy2
            · exact (List.pairwise_cons.mp hs1).1 y hy1
            · rcases List.mem_cons.mp hy2 with rfl | hy2'
              · exact hRab
              · refine htrans a b y hPa hPb (hp2 y hy2) hRab ?_
                exact (List.pairwise_cons.mp hs2).1 y hy2'
          · refine ih l1' (b :: l2') ?_ ?_ hp2 (List.pairwise_cons.mp hs1).2 hs2
            · simp at hlen ⊢; omega
            · intro x hx; exact hp1 x (List.mem_cons_of_mem _ hx)
        · rw [if_neg hab]
          have hRba : R b a := by
            rcases htot a b hPa hPb with h | h
            · exact absurd ((hiff a b hPa hPb).mpr h) hab
            · exact h
          refine List.Pairwise.cons ?_ ?_
          · intro y hy
            have hy' : y ∈ (a :: l1') ++ l2' :=
              (gmerge_aux_perm le fuel (a :: l1') l2').mem_iff.mp hy
            rcases List.mem_append.mp hy' with hy1 | hy2
            · rcases List.mem_cons.mp hy1 with rfl | hy1'
              · exact hRba
              · refine htrans b a y hPb hPa (hp1 y hy1) hRba ?_
                exact (List.pairwise_cons.mp hs1).1 y hy1'
            · exact (List.pairwise_cons.mp hs2).1 y hy2
          · refine ih (a :: l1') l2' ?_ hp1 ?_ hs1 (List.pairwise_cons.mp hs2).2
            · simp at hlen ⊢; omega
            · intro x hx; exact hp2 x (List.mem_cons_of_mem _ hx)

theorem gsort_aux_pairwise {R : file_t → file_t → Prop} (le : file_t → file_t → Bool)
    (P : file_t → Prop)
    (hiff : ∀ a b, P a → P b → (le a b = true ↔ R a b))
    (htot : ∀ a b, P a → P b → R a b ∨ R b a)
    (htrans : ∀ a b c, P a → P b → P c → R a b → R b c → R a c) :
    ∀ fuel l, l.length ≤ fuel → (∀ x ∈ l, P x) →
      (gsort_aux le fuel l).Pairwise R := by
  intro fuel
  induction fuel with
  | zero =>
    intro l hlen _
    have : l = [] := List.eq_nil_of_length_eq_zero (Nat.le_zero.mp hlen)
    subst this
    exact List.Pairwise.nil
  | succ fuel ih =>
    intro l hlen hp
    match l with
    | [] => exact List.Pairwise.nil
    | [a] => simp [gsort_aux]
    | a :: b :: l' =>
      simp only [gsort_aux]
      set half := (a :: b :: l').length / 2 with hhalf
      have hlen2 : (a :: b :: l').length = l'.length + 2 := by simp
      have htk : ((a :: b :: l').take half).length ≤ fuel := by
        rw [List.length_take]
        simp at hlen ⊢
        omega
      have hdr : ((a :: b :: l').drop half).length ≤ fuel := by
        rw [List.length_drop]
        simp at hlen ⊢
        omega
      have hptk : ∀ x ∈ (a :: b :: l').take half, P x := fun x hx =>
        hp x (List.mem_of_mem_take hx)
      have hpdr : ∀ x ∈ (a :: b :: l').drop half, P x := fun x hx =>
        hp x (List.mem_of_mem_drop hx)
      refine gmerge_aux_pairwise le P hiff htot htrans _ _ _ ?_ ?_ ?_ ?_ ?_
      · have e1 := ((gsort_aux_perm le fuel ((a :: b :: l').take half)).length_eq)
        have e2 := ((gsort_aux_perm le fuel ((a :: b :: l').drop half)).length_eq)
        rw [e1, e2, List.length_take, List.length_drop]
        simp
        omega
      · intro x hx
        exact hptk x ((gsort_aux_perm le fuel _).mem_iff.mp hx)
      · intro x hx
        exact hpdr x ((gsort_aux_perm le fuel _).mem_iff.mp hx)
      · exact ih _ htk hptk
      · exact ih _ hdr hpdr

theorem same_storage_iff (a b : file_t) :
    same_storage a b = true ↔ a.st_dev = b.st_dev ∧ a.st_ino = b.st_ino := by
  simp [same_storage]

theorem same_storage_refl (a : file_t) : same_storage a a = true := by
  simp [same_storage]

theorem same_storage_symm (a b : file_t) (h : same_storage a b = true) :
    same_storage b a = true := by
  rw [same_storage_iff] at h ⊢
  exact ⟨h.1.symm, h.2.symm⟩

theorem same_storage_trans (a b c : file_t) (h1 : same_storage a b = true)
    (h2 : same_storage b c = true) : same_storage a c = true := by
  rw [same_storage_iff] at h1 h2 ⊢
  exact ⟨h1.1.trans h2.1, h1.2.trans h2.2⟩

theorem fl_aux_eq_firstSeen_aux :
    ∀ (rest acc seen : List file_t),
      (∀ a ∈ acc, a ∈ seen) →
      (∀ s ∈ seen, ∃ a ∈ acc, same_storage s a = true) →
      fl_aux acc rest = acc ++ firstSeen_aux seen rest := by
  intro rest
  induction rest with
  | nil => intro acc seen _ _; simp [fl_aux, firstSeen_aux]
  | cons f r ih =>
    intro acc seen hsub hrep
    have hcond : (acc.any fun fp2 => same_storage fp2 f) =
        (seen.any fun g => same_storage g f) := by
      rcases hacc : acc.any fun fp2 => same_storage fp2 f with _ | _
      · rcases hseen : seen.any fun g => same_storage g f with _ | _
        · rfl
        · exfalso
          obtain ⟨s, hs, hsf⟩ := List.any_eq_true.mp hseen
          obtain ⟨a, haacc, hsa⟩ := hrep s hs
          have : same_storage a f = true :=
            same_storage_trans a s f (same_storage_symm s a hsa) hsf
          have : acc.any (fun fp2 => same_storage fp2 f) = true :=
            List.any_eq_true.mpr ⟨a, haacc, this⟩
          rw [hacc] at this
          exact Bool.false_ne_true this
      · obtain ⟨a, haacc, haf⟩ := List.any_eq_true.mp hacc
        exact (List.any_eq_true.mpr ⟨a, hsub a haacc, haf⟩).symm
    simp only [fl_aux, firstSeen_aux, hcond]
    by_cases hc : (seen.any fun g => same_storage g f) = true
    · rw [if_pos hc, if_pos hc]
      apply ih acc (seen ++ [f])
      · intro a ha; exact List.mem_append_left _ (hsub a ha)
      · intro s hs
        rcases List.mem_append.mp hs with hs' | hs'
        · exact hrep s hs'
        · obtain ⟨g, hg, hgf⟩ := List.any_eq_true.mp hc
          obtain ⟨a, haacc, hga⟩ := hrep g hg
          have hsg : s = f := by simpa using hs'
          subst hsg
          refine ⟨a, haacc, ?_⟩
          exact same_storage_trans s g a (same_storage_symm g s hgf) hga
    · rw [if_neg hc, if_neg hc]
      rw [ih (acc ++ [f]) (seen ++ [f]) ?_ ?_]
      · simp
      · intro a ha
        rcases List.mem_append.mp ha with ha' | ha'
        · exact List.mem_append_left _ (hsub a ha')
        · exact List.mem_append_right _ ha'
      · intro s hs
        rcases List.mem_append.mp hs with hs' | hs'
        · obtain ⟨a, haacc, hsa⟩ := hrep s hs'
          exact ⟨a, List.mem_append_left _ haacc, hsa⟩
        · have hsf : s = f := by simpa using hs'
          subst hsf
          exact ⟨s, List.mem_append_right _ (by simp), same_storage_refl s⟩

theorem filter_links_eq_firstSeen (l : List file_t) :
    filter_links l = firstSeen l := by
  cases l with
  | nil => rfl
  | cons x rest =>
    show fl_aux [x] rest = firstSeen_aux [] (x :: rest)
    have h0 : ([] : List file_t).any (fun g => same_storage g x) = false := rfl
    simp only [firstSeen_aux, h0]
    rw [fl_aux_eq_firstSeen_aux rest [x] [x] (by simp) ?_]
    · simp
    · intro s hs
      have : s = x := by simpa using hs
      subst this
      exact ⟨s, by simp, same_storage_refl s⟩

theorem firstSeen_aux_sublist :
    ∀ (l seen : List file_t), (firstSeen_aux seen l).Sublist l := by
  intro l
  induction l with
  | nil => intro seen; simp [firstSeen_aux]
  | cons f r ih =>
    intro seen
    simp only [firstSeen_aux]
    by_cases hc : (seen.any fun g => same_storage g f) = true
    · rw [if_pos hc]
      exact (ih (seen ++ [f])).cons f
    · rw [if_neg hc]
      exact (ih (seen ++ [f])).cons₂ f

theorem firstSeen_aux_no_match :
    ∀ (l seen : List file_t) (x : file_t), x ∈ firstSeen_aux seen l →
      (seen.any fun g => same_storage g x) = false := by
  intro l
  induction l with
  | nil => intro seen x hx; simp [firstSeen_aux] at hx
  | cons f r ih =>
    intro seen x hx
    simp only [firstSeen_aux] at hx
    by_cases hc : (seen.any fun g => same_storage g f) = true
    · rw [if_pos hc] at hx
      have := ih (seen ++ [f]) x hx
      rw [List.any_append] at this
      exact (Bool.or_eq_false_iff.mp this).1
    · rw [if_neg hc] at hx
      rcases List.mem_cons.mp hx with rfl | hx'
      · simpa using hc
      · have := ih (seen ++ [f]) x hx'
        rw [List.any_append] at this
        exact (Bool.or_eq_false_iff.mp this).1

theorem firstSeen_aux_pairwise :
    ∀ (l seen : List file_t),
      (firstSeen_aux seen l).Pairwise (fun a b => same_storage a b = false) := by
  intro l
  induction l with
  | nil => intro seen; simp [firstSeen_aux]
  | cons f r ih =>
    intro seen
    simp only [firstSeen_aux]
    by_cases hc : (seen.any fun g => same_storage g f) = true
    · rw [if_pos hc]; exact ih (seen ++ [f])
    · rw [if_neg hc]
      refine List.Pairwise.cons ?_ (ih (seen ++ [f]))
      intro y hy
      have := firstSeen_aux_no_match r (seen ++ [f]) y hy
      rw [List.any_append] at this
      have h2 := (Bool.or_eq_false_iff.mp this).2
      simpa using h2

theorem testBit_768 (i : Nat) :
    Nat.testBit 768 i = (decide (i = 8) || decide (i = 9)) := by
  match i with
  | 0 | 1 | 2 | 3 | 4 | 5 | 6 | 7 | 8 | 9 => decide
  | n + 10 =>
    have h1 : (768 : Nat) < 2 ^ 10 := by norm_num
    have h2 : (2 : Nat) ^ 10 ≤ 2 ^ (n + 10) :=
      Nat.pow_le_pow_right (by norm_num) (by omega)
    rw [Nat.testBit_lt_two_pow (lt_of_lt_of_le h1 h2)]
    simp

theorem land_768_eq (x : Nat) (h8 : x.testBit 8 = true) (h9 : x.testBit 9 = true) :
    x &&& 768 = 768 := by
  apply Nat.eq_of_testBit_eq
  intro i
  rw [Nat.testBit_land, testBit_768 i]
  by_cases hi8 : i = 8
  · subst hi8; simp [h8]
  · by_cases hi9 : i = 9
    · subst hi9; simp [h9]
    · simp [hi8, hi9]

theorem build_options_testBit_d (flags : List Char) (hd : 'd' ∈ flags) :
    (build_options flags).testBit 8 = true := by
  induction flags with
  | nil => simp at hd
  | cons c r ih =>
    simp only [build_options, Nat.testBit_lor]
    rcases List.mem_cons.mp hd with heq | hd'
    · have : (optval 'd').testBit 8 = true := by decide
      rw [← heq, this, Bool.or_true]
    · rw [ih hd', Bool.true_or]

theorem build_options_testBit_l (flags : List Char) (hl : 'l' ∈ flags) :
    (build_options flags).testBit 9 = true := by
  induction flags with
  | nil => simp at hl
  | cons c r ih =>
    simp only [build_options, Nat.testBit_lor]
    rcases List.mem_cons.mp hl with heq | hl'
    · have : (optval 'l').testBit 9 = true := by decide
      rw [← heq, this, Bool.or_true]
    · rw [ih hl', Bool.true_or]

/-! ### Helper lemmas about the interactive delete loop -/
theorem char_toNat_inj (c d : Char) (h : c.toNat = d.toNat) : c = d :=
  Char.ext (UInt32.ext h)

theorem toggle_nth_cons_succ (e : delete_t) (dl : List delete_t) (n : Nat) :
    toggle_nth (e :: dl) (n + 1) = e :: toggle_nth dl n := by
  unfold toggle_nth
  cases h : dl[n]? with
  | none => simp [h]
  | some e2 => simp [h]

theorem toggle_nth_map_file : ∀ (dl : List delete_t) (n : Nat),
    (toggle_nth dl n).map (fun e => e.file) = dl.map (fun e => e.file) := by
  intro dl
  induction dl with
  | nil => intro n; rfl
  | cons e dl' ih =>
    intro n
    cases n with
    | zero => simp [toggle_nth]
    | succ n' => rw [toggle_nth_cons_succ, List.map_cons, List.map_cons, ih]

theorem toggle_nth_map_name (dl : List delete_t) (n : Nat) :
    (toggle_nth dl n).map (fun e => e.file.name) = dl.map (fun e => e.file.name) := by
  have h1 : ∀ xs : List delete_t, xs.map (fun e => e.file.name) =
      (xs.map (fun e => e.file)).map (fun f => f.name) := by
    intro xs; rw [List.map_map]; rfl
  rw [h1, h1, toggle_nth_map_file]

/-- Whatever the operator does, a session only unlinks names drawn from
the disposition list. -/
theorem delete_session_subset :
    ∀ (ins : List String) (dl : List delete_t),
      ∀ x ∈ (delete_session dl ins).1, x ∈ dl.map (fun e => e.file.name) := by
  intro ins
  induction ins with
  | nil => intro dl x hx; simp [delete_session] at hx
  | cons line rest ih =>
    intro dl x hx
    simp only [delete_session] at hx
    by_cases hgo : goCheck line
    · rw [if_pos hgo] at hx
      obtain ⟨e, he, hname⟩ := List.mem_map.mp hx
      exact hname ▸ List.mem_map.mpr ⟨e, (List.mem_filter.mp he).1, rfl⟩
    · rw [if_neg hgo] at hx
      by_cases hpos : 0 < atoi_line line
      · rw [if_pos hpos] at hx
        have := ih _ x hx
        rwa [toggle_nth_map_name] at this
      · rw [if_neg hpos] at hx
        exact ih _ x hx

/-- If no input line reads as the number 1, the head (master) entry keeps
`keep = 1` throughout and is never unlinked: everything unlinked comes
from the tail of the disposition list. -/
theorem delete_session_master :
    ∀ (ins : List String) (m : file_t) (tl : List delete_t),
      (∀ line ∈ ins, atoi_line line ≠ 1) →
      ∀ x ∈ (delete_session (⟨m, true⟩ :: tl) ins).1,
        x ∈ tl.map (fun e => e.file.name) := by
  intro ins
  induction ins with
  | nil => intro m tl _ x hx; simp [delete_session] at hx
  | cons line rest ih =>
    intro m tl hin x hx
    simp only [delete_session] at hx
    by_cases hgo : goCheck line
    · rw [if_pos hgo] at hx
      have hfc : (⟨m, true⟩ :: tl : List delete_t).filter (fun e => !e.keep) =
          tl.filter (fun e => !e.keep) := by
        simp [List.filter_cons]
      rw [hfc] at hx
      obtain ⟨e, he, hname⟩ := List.mem_map.mp hx
      exact hname ▸ List.mem_map.mpr ⟨e, (List.mem_filter.mp he).1, rfl⟩
    · rw [if_neg hgo] at hx
      by_cases hpos : 0 < atoi_line line
      · rw [if_pos hpos] at hx
        have h1 : atoi_line line ≠ 1 := hin line (List.mem_cons_self _ _)
        have h2 : (atoi_line line).toNat - 1 = ((atoi_line line).toNat - 2) + 1 := by
          omega
        rw [h2, toggle_nth_cons_succ] at hx
        have := ih m _ (fun l hl => hin l (List.mem_cons_of_mem _ hl)) x hx
        rwa [toggle_nth_map_name] at this
      · rw [if_neg hpos] at hx
        exact ih m tl (fun l hl => hin l (List.mem_cons_of_mem _ hl)) x hx

/-- The input lines a session leaves for later groups are a subset of the
lines it was given. -/
theorem delete_session_rest :
    ∀ (ins : List String) (dl : List delete_t),
      ∀ line' ∈ (delete_session dl ins).2, line' ∈ ins := by
  intro ins
  induction ins with
  | nil => intro dl line' h; simp [delete_session] at h
  | cons line rest ih =>
    intro dl line' h
    simp only [delete_session] at h
    by_cases hgo : goCheck line
    · rw [if_pos hgo] at h
      exact List.mem_cons_of_mem _ h
    · rw [if_neg hgo] at h
      by_cases hpos : 0 < atoi_line line
      · rw [if_pos hpos] at h
        exact List.mem_cons_of_mem _ (ih _ line' h)
      · rw [if_neg hpos] at h
        exact List.mem_cons_of_mem _ (ih _ line' h)

theorem round_masters_subset (fs : FileSys) :
    ∀ (fuel : Nat) (l : List file_t), ∀ m ∈ round_masters_aux fs fuel l, m ∈ l := by
  intro fuel
  induction fuel with
  | zero => intro l m hm; simp [round_masters_aux] at hm
  | succ fuel ih =>
    intro l m hm
    cases l with
    | nil => simp [round_masters_aux] at hm
    | cons m0 rest =>
      simp only [round_masters_aux] at hm
      rcases List.mem_cons.mp hm with rfl | hm'
      · exact List.mem_cons_self _ _
      · exact List.mem_cons_of_mem _
          (List.mem_filter.mp (ih _ m hm')).1

theorem link_unlinks_subset (fs : FileSys) :
    ∀ (fuel : Nat) (l : List file_t),
      ∀ x ∈ link_unlinks_aux fs fuel l, x ∈ l.map (fun f => f.name) := by
  intro fuel
  induction fuel with
  | zero => intro l x hx; simp [link_unlinks_aux] at hx
  | succ fuel ih =>
    intro l x hx
    cases l with
    | nil => simp [link_unlinks_aux] at hx
    | cons m rest =>
      simp only [link_unlinks_aux, List.mem_append] at hx
      rcases hx with hx | hx
      · obtain ⟨g, hg, hgname⟩ := List.mem_map.mp hx
        exact hgname ▸ List.mem_map.mpr
          ⟨g, List.mem_cons_of_mem _ (List.mem_filter.mp hg).1, rfl⟩
      · obtain ⟨g, hg, hgname⟩ := List.mem_map.mp (ih _ x hx)
        exact hgname ▸ List.mem_map.mpr
          ⟨g, List.mem_cons_of_mem _ (List.mem_filter.mp hg).1, rfl⟩

theorem delete_rounds_subset (fs : FileSys) :
    ∀ (fuel : Nat) (l : List file_t) (ins : List String),
      ∀ x ∈ (delete_rounds_aux fs fuel l ins).1, x ∈ l.map (fun f => f.name) := by
  intro fuel
  induction fuel with
  | zero => intro l ins x hx; simp [delete_rounds_aux] at hx
  | succ fuel ih =>
    intro l ins x hx
    cases l with
    | nil => simp [delete_rounds_aux] at hx
    | cons m rest =>
      simp only [delete_rounds_aux] at hx
      by_cases hgood : ((rest.filter (fun y => compare_files fs m y)).isEmpty : Bool)
      · rw [if_pos hgood] at hx
        obtain ⟨g, hg, hgname⟩ := List.mem_map.mp (ih _ _ x hx)
        exact hgname ▸ List.mem_map.mpr
          ⟨g, List.mem_cons_of_mem _ (List.mem_filter.mp hg).1, rfl⟩
      · rw [if_neg hgood] at hx
        simp only [List.mem_append] at hx
        rcases hx with hx | hx
        · have := delete_session_subset ins _ x hx
          simp only [mk_delete_list, List.map_cons, List.map_map] at this
          rcases List.mem_cons.mp this with h1 | h1
          · exact h1 ▸ List.mem_map.mpr ⟨m, List.mem_cons_self _ _, rfl⟩
          · obtain ⟨g, hg, hgname⟩ := List.mem_map.mp h1
            exact hgname ▸ List.mem_map.mpr
              ⟨g, List.mem_cons_of_mem _ (List.mem_filter.mp hg).1, rfl⟩
        · obtain ⟨g, hg, hgname⟩ := List.mem_map.mp (ih _ _ x hx)
          exact hgname ▸ List.mem_map.mpr
            ⟨g, List.mem_cons_of_mem _ (List.mem_filter.mp hg).1, rfl⟩

/-- Under a duplicate-free name list, a record of the bad list never
shares its name with a record of the good list. -/
theorem good_bad_name_disjoint (fs : FileSys) (m : file_t) (rest : List file_t)
    (hnd : (rest.map (fun f => f.name)).Nodup) (x : file_t)
    (hx : x ∈ rest.filter (fun y => !(compare_files fs m y))) :
    x.name ∉ (rest.filter (fun y => compare_files fs m y)).map (fun f => f.name) := by
  intro hmem
  obtain ⟨g, hg, hgname⟩ := List.mem_map.mp hmem
  have hgrest := (List.mem_filter.mp hg).1
  have hxrest := (List.mem_filter.mp hx).1
  have hgx : g = x := List.inj_on_of_nodup_map hnd hgrest hxrest hgname
  subst hgx
  have h1 := (List.mem_filter.mp hg).2
  have h2 := (List.mem_filter.mp hx).2
  rw [h1] at h2
  simp at h2

theorem bad_names_nodup (fs : FileSys) (m : file_t) (rest : List file_t)
    (hnd : (rest.map (fun f => f.name)).Nodup) :
    ((rest.filter (fun y => !(compare_files fs m y))).map (fun f => f.name)).Nodup :=
  hnd.sublist ((List.filter_sublist rest).map (fun f => f.name))

/-- In link mode no round master is ever unlinked (with duplicate-free
names). -/
theorem link_unlinks_masters (fs : FileSys) :
    ∀ (fuel : Nat) (l : List file_t), (l.map (fun f => f.name)).Nodup →
      ∀ m ∈ round_masters_aux fs fuel l, m.name ∉ link_unlinks_aux fs fuel l := by
  intro fuel
  induction fuel with
  | zero => intro l _ m hm; simp [round_masters_aux] at hm
  | succ fuel ih =>
    intro l hnd m hm
    cases l with
    | nil => simp [round_masters_aux] at hm
    | cons m0 rest =>
      have hnd' : (rest.map (fun f => f.name)).Nodup := (List.nodup_cons.mp hnd).2
      have hm0 : m0.name ∉ rest.map (fun f => f.name) := (List.nodup_cons.mp hnd).1
      simp only [round_masters_aux] at hm
      simp only [link_unlinks_aux, List.mem_append]
      rcases List.mem_cons.mp hm with rfl | hm'
      · rintro (hx | hx)
        · exact hm0 (by
            obtain ⟨g, hg, hgname⟩ := List.mem_map.mp hx
            exact hgname ▸ List.mem_map.mpr ⟨g, (List.mem_filter.mp hg).1, rfl⟩)
        · exact hm0 (by
            obtain ⟨g, hg, hgname⟩ := List.mem_map.mp (link_unlinks_subset fs fuel _ _ hx)
            exact hgname ▸ List.mem_map.mpr ⟨g, (List.mem_filter.mp hg).1, rfl⟩)
      · rintro (hx | hx)
        · have hmbad : m ∈ rest.filter (fun y => !(compare_files fs m0 y)) :=
            round_masters_subset fs fuel _ m hm'
          exact good_bad_name_disjoint fs m0 rest hnd' m hmbad hx
        · exact ih _ (bad_names_nodup fs m0 rest hnd') m hm' hx

/-- In delete mode no round master is ever unlinked, provided no input
line reads as the number 1 (with duplicate-free names). -/
theorem delete_rounds_masters (fs : FileSys) :
    ∀ (fuel : Nat) (l : List file_t) (ins : List String),
      (l.map (fun f => f.name)).Nodup →
      (∀ line ∈ ins, atoi_line line ≠ 1) →
      ∀ m ∈ round_masters_aux fs fuel l,
        m.name ∉ (delete_rounds_aux fs fuel l ins).1 := by
  intro fuel
  induction fuel with
  | zero => intro l ins _ _ m hm; simp [round_masters_aux] at hm
  | succ fuel ih =>
    intro l ins hnd hin m hm
    cases l with
    | nil => simp [round_masters_aux] at hm
    | cons m0 rest =>
      have hnd' : (rest.map (fun f => f.name)).Nodup := (List.nodup_cons.mp hnd).2
      have hm0 : m0.name ∉ rest.map (fun f => f.name) := (List.nodup_cons.mp hnd).1
      simp only [round_masters_aux] at hm
      simp only [delete_rounds_aux]
      by_cases hgood : ((rest.filter (fun y => compare_files fs m0 y)).isEmpty : Bool)
      · rw [if_pos hgood]
        rcases List.mem_cons.mp hm with rfl | hm'
        · intro hx
          exact hm0 (by
            obtain ⟨g, hg, hgname⟩ :=
              List.mem_map.mp (delete_rounds_subset fs fuel _ _ m.name hx)
            exact hgname ▸ List.mem_map.mpr ⟨g, (List.mem_filter.mp hg).1, rfl⟩)
        · exact ih _ ins (bad_names_nodup fs m0 rest hnd') hin m hm'
      · rw [if_neg hgood]
        have hin' : ∀ line ∈ (delete_session
            (mk_delete_list m0 (rest.filter (fun y => compare_files fs m0 y))) ins).2,
            atoi_line line ≠ 1 := by
          intro line hl
          exact hin line (delete_session_rest ins _ line hl)
        simp only [List.mem_append]
        rcases List.mem_cons.mp hm with rfl | hm'
        · rintro (hx | hx)
          · have := delete_session_master ins m _ hin m.name hx
            simp only [List.map_map] at this
            exact hm0 (by
              obtain ⟨g, hg, hgname⟩ := List.mem_map.mp this
              exact hgname ▸ List.mem_map.mpr ⟨g, (List.mem_filter.mp hg).1, rfl⟩)
          · exact hm0 (by
              obtain ⟨g, hg, hgname⟩ :=
                List.mem_map.mp (delete_rounds_subset fs fuel _ _ m.name hx)
              exact hgname ▸ List.mem_map.mpr ⟨g, (List.mem_filter.mp hg).1, rfl⟩)
        · rintro (hx | hx)
          · have hmbad : m ∈ rest.filter (fun y => !(compare_files fs m0 y)) :=
              round_masters_subset fs fuel _ m hm'
            have := delete_session_master ins m0 _ hin m.name hx
            simp only [List.map_map] at this
            exact good_bad_name_disjoint fs m0 rest hnd' m hmbad (by
              obtain ⟨g, hg, hgname⟩ := List.mem_map.mp this
              exact hgname ▸ List.mem_map.mpr ⟨g, hg, rfl⟩)
          · exact ih _ _ (bad_names_nodup fs m0 rest hnd') hin' m hm' hx

/-- A session whose input lines never pass the go-ahead test runs to end
of input and aborts with nothing deleted. -/
theorem delete_session_no_go :
    ∀ (ins : List String), (∀ line ∈ ins, goCheck line = false) →
      ∀ dl : List delete_t, delete_session dl ins = ([], []) := by
  intro ins
  induction ins with
  | nil => intro _ dl; rfl
  | cons line rest ih =>
    intro hng dl
    have h1 : ¬(goCheck line = true) := by
      rw [hng line (List.mem_cons_self _ _)]
      exact Bool.false_ne_true
    have hng' : ∀ l ∈ rest, goCheck l = false :=
      fun l hl => hng l (List.mem_cons_of_mem _ hl)
    simp only [delete_session]
    rw [if_neg h1]
    by_cases hpos : 0 < atoi_line line
    · rw [if_pos hpos]; exact ih hng' _
    · rw [if_neg hpos]; exact ih hng' dl

/-- With no go-ahead anywhere in the input, every group's session aborts
and the whole bucket's delete-mode processing unlinks nothing (while still
visiting every group). -/
theorem delete_rounds_no_go (fs : FileSys) :
    ∀ (fuel : Nat) (l : List file_t) (ins : List String),
      (∀ line ∈ ins, goCheck line = false) →
      (delete_rounds_aux fs fuel l ins).1 = [] := by
  intro fuel
  induction fuel with
  | zero => intro l ins _; rfl
  | succ fuel ih =>
    intro l ins hng
    cases l with
    | nil => rfl
    | cons m rest =>
      simp only [delete_rounds_aux]
      by_cases hgood : ((rest.filter (fun y => compare_files fs m y)).isEmpty : Bool)
      · rw [if_pos hgood]
        exact ih _ ins hng
      · rw [if_neg hgood]
        rw [delete_session_no_go ins hng]
        simp only []
        rw [ih _ [] (by intro l hl; simp at hl)]
        rfl

theorem strncmp_c_cons (n : Nat) (c1 c2 : Char) (r1 r2 : List Char) :
    strncmp_c (n+1) (c1 :: r1) (c2 :: r2) =
      if c1 = c2 then strncmp_c n r1 r2 else (c1.toNat : Int) - (c2.toNat : Int) := rfl

/-- The go-ahead test `strncmp(buf, "go", 2) == 0` succeeds exactly when
the first two characters of the line are `go`. -/
theorem strncmp_go : ∀ cs : List Char,
    (strncmp_c 2 (cs ++ ['\n']) ['g', 'o'] == 0) = true ↔ cs.take 2 = ['g', 'o']
  | [] => by decide
  | [c] => by
    rw [show ([c] ++ ['\n'] : List Char) = [c, '\n'] from rfl,
      strncmp_c_cons 1 c 'g' ['\n'] ['o']]
    constructor
    · intro h
      exfalso
      by_cases hc : c = 'g'
      · subst hc
        rw [if_pos rfl] at h
        revert h; decide
      · rw [if_neg hc, beq_iff_eq, sub_eq_zero] at h
        exact hc (char_toNat_inj c 'g' (Nat.cast_inj.mp h))
    · intro h
      exfalso
      simp at h
  | c1 :: c2 :: cs' => by
    rw [show ((c1 :: c2 :: cs') ++ ['\n'] : List Char) = c1 :: c2 :: (cs' ++ ['\n'])
        from rfl,
      show (c1 :: c2 :: cs').take 2 = [c1, c2] from rfl,
      strncmp_c_cons 1 c1 'g' (c2 :: (cs' ++ ['\n'])) ['o']]
    by_cases h1 : c1 = 'g'
    · subst h1
      rw [if_pos rfl, strncmp_c_cons 0 c2 'o' (cs' ++ ['\n']) []]
      by_cases h2 : c2 = 'o'
      · subst h2
        rw [if_pos rfl]
        constructor
        · intro _; rfl
        · intro _; rfl
      · rw [if_neg h2, beq_iff_eq, sub_eq_zero]
        constructor
        · intro h
          exact absurd (char_toNat_inj c2 'o' (Nat.cast_inj.mp h)) h2
        · intro h
          exact absurd (List.cons.inj (List.cons.inj h).2).1 h2
    · rw [if_neg h1, beq_iff_eq, sub_eq_zero]
      constructor
      · intro h
        exact absurd (char_toNat_inj c1 'g' (Nat.cast_inj.mp h)) h1
      · intro h
        exact absurd (List.cons.inj h).1 h1

/-- The 32-bit truncation in the `atoi` model is observable: a ten-digit
line with mathematical value 2^32 + 1 reads as the int 1, exactly as the
program's `i = atoi(buf)` does. -/
theorem atoi_line_wraps :
    atoi_line "4294967297" = 1 ∧ atoi_raw (bufOf "4294967297") = 4294967297 := by
  decide

/-! ### The claims -/
/-- Claim C1 (counterexample to the claim as stated).  The master of an
equivalence group CAN be removed in the interactive delete session: with
the group {master `ma`, duplicate `da`} and operator inputs `1` then `go`,
the operator toggles entry 1 — the master itself — to "delete", and the
go-ahead then unlinks the master's file. -/
theorem C1_counterexample :
    mC ∈ round_masters fsC [mC, dC] ∧
    mC.name ∈ phase3_unlinks OPT_DELETE fsC [mC, dC] ["1", "go"] := by decide

/-- Claim C1 (amended).  The master of an equivalence group is never
unlinked by any action, provided — in the interactive delete session —
the operator never toggles the master's own entry (no input line reads as
the number 1 through `atoi`, whose result is truncated to the 32-bit
`int` the program stores it in, so e.g. the line `4294967297` DOES read
as 1): list mode unlinks nothing, link mode unlinks only confirmed
duplicates, and a delete session whose inputs never toggle entry 1 keeps
the master marked "keep" throughout.  Path names are assumed
duplicate-free (the phase-one tree guarantees this). -/
theorem C1_master_preserved (options : Nat) (fs : FileSys) (l : List file_t)
    (ins : List String) (hnd : (l.map (fun f => f.name)).Nodup)
    (hin : ∀ line ∈ ins, atoi_line line ≠ 1) :
    ∀ m ∈ round_masters fs l, m.name ∉ phase3_unlinks options fs l ins := by
  intro m hm
  unfold phase3_unlinks
  by_cases hL : options &&& OPT_LINK ≠ 0
  · rw [if_pos hL]
    exact link_unlinks_masters fs l.length l hnd m hm
  · rw [if_neg hL]
    by_cases hD : options &&& OPT_DELETE ≠ 0
    · rw [if_pos hD]
      exact delete_rounds_masters fs l.length l ins hnd hin m hm
    · rw [if_neg hD]
      simp

/-- Claim C1 witness: with inputs `2`, `go` (which toggle the duplicate,
not the master) the master `ma` survives. -/
theorem C1_witness :
    mC ∈ round_masters fsC [mC, dC] ∧
    mC.name ∉ phase3_unlinks OPT_DELETE fsC [mC, dC] ["2", "go"] :=
  ⟨by decide,
   C1_master_preserved OPT_DELETE fsC [mC, dC] ["2", "go"] (by decide) (by decide)
     mC (by decide)⟩

/-- Claim C2.  For a digest bucket whose (filtered) records all open onto
error-free regular files with contents given by `c`, the resolver's
repeated master/good/bad rounds realise the true partition into
byte-identical classes: two distinct records land in the same emitted
equivalence group exactly when their contents are equal.  Since the
right-hand side does not mention the order of `l`, the partition is the
same for every ordering of the bucket (and bucket iteration order is
irrelevant because buckets are processed independently). -/
theorem C2_true_partition (fs : FileSys) (c : file_t → List Nat) (l : List file_t)
    (hc : ∀ x ∈ l, fs x.name = some (toStream (c x)))
    (a b : file_t) (ha : a ∈ l) (hb : b ∈ l) (hab : a ≠ b) :
    sameGroup (resolve fs l) a b ↔ c a = c b := by
  constructor
  · rintro ⟨g, hg, hga, hgb⟩
    obtain ⟨-, hmem⟩ := resolve_aux_sound fs c l.length l le_rfl hc g hg
    have hca : c a = c g.1 := by
      rcases hga with rfl | hga'
      · rfl
      · exact (hmem a hga').2
    have hcb : c b = c g.1 := by
      rcases hgb with rfl | hgb'
      · rfl
      · exact (hmem b hgb').2
    exact hca.trans hcb.symm
  · intro h
    exact resolve_aux_complete fs c l.length l le_rfl hc a b ha hb hab h

/-- Claim C2 witness: two distinct files with identical content `[7]` end
up in the same emitted group. -/
theorem C2_witness : sameGroup (resolve wfs2 [wfileC, wfileD]) wfileC wfileD :=
  (C2_true_partition wfs2 (fun _ => [7]) [wfileC, wfileD] (by decide)
    wfileC wfileD (by decide) (by decide) (by decide)).mpr rfl

/-- Claim C3.  The claim says a failed `read` mid-digest aborts the digest,
warns, and leaves the file out of every bucket.  The code's loop
`while ((nbytes = read(fd, buf, sizeof(buf))) > 0)` silently treats the
-1 error return like end of file: for a file that opens, yields one chunk
`[1]` and then fails to read, the file IS inserted into the bucket keyed
by the digest of the partial content, and no warning is emitted. -/
theorem C3_read_error_still_bucketed :
    digest_entry fsErr fErr = some [1] ∧ digest_warned fsErr fErr = false := by decide

/-- Claim C4.  `compare_files`: if either open fails the result is false
(after a hard warning); when both files open onto error-free chunked
regular-file streams, the lockstep comparison returns true exactly when
the byte contents are equal — equivalently, it returns false on any
short-read/size mismatch or byte mismatch, and true only when both reach
end of input simultaneously with all preceding chunks equal. -/
theorem C4_compare_contract (fs : FileSys) (a b : file_t) :
    ((fs a.name = none ∨ fs b.name = none) → compare_files fs a b = false) ∧
    (∀ c1 c2 : List Nat, fs a.name = some (toStream c1) →
      fs b.name = some (toStream c2) →
      (compare_files fs a b = true ↔ c1 = c2)) := by
  constructor
  · rintro (h | h)
    · simp [compare_files, h]
    · cases hfa : fs a.name with
      | none => simp [compare_files, hfa]
      | some s1 => simp [compare_files, hfa, h]
  · exact fun c1 c2 h1 h2 => compare_files_content fs a b c1 c2 h1 h2

/-- Claim C4 witness: an unopenable second file yields false; comparing the
file `wa` with itself reduces to equality of its contents. -/
theorem C4_witness :
    compare_files wfs wfileA wfileX = false ∧
    (compare_files wfs wfileA wfileA = true ↔ ([1, 2] : List Nat) = [1, 2]) :=
  ⟨(C4_compare_contract wfs wfileA wfileX).1 (Or.inr (by decide)),
   (C4_compare_contract wfs wfileA wfileA).2 [1, 2] [1, 2] (by decide) (by decide)⟩

/-- Claim C5.  The hard-link filter keeps a subsequence of its input
(preserving the sort order), keeps at most one record per (deviceId,
inodeNumber) identity, keeps exactly the first-seen record of each
identity (refinement against the spec-side `firstSeen`), and is skipped
entirely when hard-link-aware mode (`OPT_HARDLINKS`) is ON. -/
theorem C5_hardlink_filter :
    (∀ l : List file_t, (filter_links l).Sublist l) ∧
    (∀ l : List file_t, (filter_links l).Pairwise
      (fun a b => ¬(a.st_dev = b.st_dev ∧ a.st_ino = b.st_ino))) ∧
    (∀ l : List file_t, filter_links l = firstSeen l) ∧
    (∀ (options : Nat) (l : List file_t),
      (options &&& OPT_HARDLINKS ≠ 0 → prepare options l = glist_sort l) ∧
      (options &&& OPT_HARDLINKS = 0 →
        prepare options l = filter_links (glist_sort l))) := by
  refine ⟨?_, ?_, filter_links_eq_firstSeen, ?_⟩
  · intro l
    rw [filter_links_eq_firstSeen]
    exact firstSeen_aux_sublist l []
  · intro l
    rw [filter_links_eq_firstSeen]
    refine (firstSeen_aux_pairwise l []).imp ?_
    intro a b hab hcon
    have : same_storage a b = true := (same_storage_iff a b).mpr hcon
    rw [hab] at this
    exact Bool.false_ne_true this
  · intro options l
    constructor
    · intro h; unfold prepare; rw [if_neg h]
    · intro h; unfold prepare; rw [if_pos h]

/-- Claim C5 witness: the filter is skipped when `OPT_HARDLINKS` is set and
applied when it is clear; on three records two of which share (deviceId,
inodeNumber), exactly one representative of the pair survives. -/
theorem C5_witness :
    prepare OPT_HARDLINKS [wfileA] = glist_sort [wfileA] ∧
    prepare 0 [wfileA] = filter_links (glist_sort [wfileA]) ∧
    filter_links [⟨"p1", 1, 1, 0, 3, 3⟩, ⟨"p2", 1, 1, 0, 3, 3⟩, ⟨"p3", 1, 1, 0, 3, 4⟩] =
      [⟨"p1", 1, 1, 0, 3, 3⟩, ⟨"p3", 1, 1, 0, 3, 4⟩] :=
  ⟨(C5_hardlink_filter.2.2.2 OPT_HARDLINKS [wfileA]).1 (by decide),
   (C5_hardlink_filter.2.2.2 0 [wfileA]).2 (by decide),
   by decide⟩

/-- Claim C6.  `g_list_sort(…, sort_compare)` sorts each bucket descending
by link count with ties broken by ascending path, for all link counts
below 2^31 (`sort_compare` subtracts the unsigned 64-bit `nlink_t` values
and truncates the difference to a 32-bit `gint`, so the comparison is
faithful to the link counts only below that bound — far above what any
filesystem produces). -/
theorem C6_bucket_sorted (l : List file_t) (h : ∀ f ∈ l, f.st_nlink < 2 ^ 31) :
    (glist_sort l).Perm l ∧ (glist_sort l).Pairwise sortOrd := by
  constructor
  · exact gsort_aux_perm _ l.length l
  · exact gsort_aux_pairwise (fun a b => decide (sort_compare a b ≤ 0))
      (fun f => f.st_nlink < 2 ^ 31)
      (fun a b pa pb => by rw [decide_eq_true_eq]; exact sort_compare_le_iff a b pa pb)
      (fun a b _ _ => sortOrd_total a b)
      (fun a b c _ _ _ => sortOrd_trans a b c)
      l.length l le_rfl h

/-- Claim C6 witness at a concrete two-element bucket. -/
theorem C6_witness :
    (glist_sort [wfileA, wfileB]).Perm [wfileA, wfileB] ∧
    (glist_sort [wfileA, wfileB]).Pairwise sortOrd :=
  C6_bucket_sorted [wfileA, wfileB] (by decide)

/-- Claim C7.  `compare_files` is symmetric for every filesystem and every
pair of files, and reflexive on every file that is readable (opens and
reads without error). -/
theorem C7_symm_refl :
    (∀ (fs : FileSys) (a b : file_t), compare_files fs a b = compare_files fs b a) ∧
    (∀ (fs : FileSys) (a : file_t) (s : List ReadResult),
      fs a.name = some s → errFree s → compare_files fs a a = true) := by
  constructor
  · intro fs a b
    unfold compare_files
    cases fs a.name <;> cases fs b.name <;> simp [compare_loop_symm]
  · intro fs a s hs hef
    simp only [compare_files, hs]
    exact compare_loop_refl s hef

/-- Claim C7 witness at concrete files. -/
theorem C7_witness :
    compare_files wfs wfileA wfileB = compare_files wfs wfileB wfileA ∧
    compare_files wfs wfileA wfileA = true :=
  ⟨C7_symm_refl.1 wfs wfileA wfileB,
   C7_symm_refl.2 wfs wfileA (toStream [1, 2]) (by decide) (by decide)⟩

/-- Claim C8.  If end of input is reached without any go-ahead line, the
session terminates with nothing deleted (`([], [])`), and at bucket level
every group is still visited while no file at all is unlinked. -/
theorem C8_eof_abort (ins : List String) (hng : ∀ line ∈ ins, goCheck line = false) :
    (∀ dl : List delete_t, delete_session dl ins = ([], [])) ∧
    (∀ (fs : FileSys) (l : List file_t), (delete_rounds fs l ins).1 = []) :=
  ⟨delete_session_no_go ins hng,
   fun fs l => delete_rounds_no_go fs l.length l ins hng⟩

/-- Claim C8 witness: inputs `2`, `x` contain no go-ahead, so the session
aborts and the bucket's delete-mode run unlinks nothing. -/
theorem C8_witness :
    delete_session (mk_delete_list mC [dC]) ["2", "x"] = ([], []) ∧
    (delete_rounds fsC [mC, dC] ["2", "x"]).1 = [] :=
  ⟨(C8_eof_abort ["2", "x"] (by decide)).1 _,
   (C8_eof_abort ["2", "x"] (by decide)).2 fsC [mC, dC]⟩

/-- Claim C9.  Requesting both delete (`d`) and link (`l`) is caught by
`main`'s configuration check `(options & (OPT_DELETE|OPT_LINK)) ==
(OPT_DELETE|OPT_LINK)`: the program aborts with status 1 before any
processing (the outcome is `config_error`, not `run`). -/
theorem C9_mutually_exclusive (flags : List Char) (nargs : Nat)
    (hd : 'd' ∈ flags) (hl : 'l' ∈ flags) :
    main_config flags nargs = MainOutcome.config_error 1 := by
  have hc : build_options flags &&& (OPT_DELETE ||| OPT_LINK) =
      OPT_DELETE ||| OPT_LINK := by
    have he : OPT_DELETE ||| OPT_LINK = 768 := by decide
    rw [he]
    exact land_768_eq _ (build_options_testBit_d flags hd)
      (build_options_testBit_l flags hl)
  unfold main_config
  rw [if_pos hc]

/-- Claim C9 witness. -/
theorem C9_witness : main_config ['d', 'l'] 0 = MainOutcome.config_error 1 :=
  C9_mutually_exclusive ['d', 'l'] 0 (by decide) (by decide)

/-- Claim C10.  The go-ahead check is `strncmp(buf, "go", 2) == 0`, a
two-character prefix match: any line whose first two characters are `go`
(such as `gone` or `golf`) fires the Execute transition, unlinking every
record still marked delete and ending the session. -/
theorem C10_go_twochar (line : String) (dl : List delete_t) (rest : List String) :
    (goCheck line = true ↔ line.data.take 2 = ['g', 'o']) ∧
    (line.data.take 2 = ['g', 'o'] →
      delete_session dl (line :: rest) =
        ((dl.filter (fun e => !e.keep)).map (fun e => e.file.name), rest)) := by
  have hch : goCheck line = true ↔ line.data.take 2 = ['g', 'o'] :=
    strncmp_go line.data
  refine ⟨hch, ?_⟩
  intro h
  simp only [delete_session]
  rw [if_pos (hch.mpr h)]

/-- Claim C10 witness: the non-token lines `gone` and `golf` both pass the
go-ahead check, and `gone` triggers the deletion of the records still
marked delete. -/
theorem C10_witness :
    goCheck "gone" = true ∧ goCheck "golf" = true ∧
    delete_session (mk_delete_list mC [dC]) ["gone"] = (["da"], []) := by
  refine ⟨(C10_go_twochar "gone" [] []).1.mpr (by decide),
    (C10_go_twochar "golf" [] []).1.mpr (by decide), ?_⟩
  rw [(C10_go_twochar "gone" (mk_delete_list mC [dC]) []).2 (by decide)]
  decide

end Dupfind
